import Mathlib

/-!
Verification of the TAAR locale addon-ranking pipeline
(`mozetl/taar/taar_locale.py`).

The pipeline is a linear batch job:

  get_addons (SQL extraction)  →  compute_threshold  →  transform  →  dict

We embed it shallowly over Lean lists:

* an event table is a `List ClientRow`, each row carrying a nested list of
  `ActiveAddon` records, mirroring the `clients_daily` schema used by the
  SQL query in `get_addons`;
* the dataframe of `(pair_cnts, addon_key, locality)` rows produced by the
  SQL query is a `List AddonRow`;
* machine floats are modelled as exact rationals `ℚ` (the only divisions
  performed are `pair_cnts / total`);
* Spark's `DataFrame.approxQuantile` is an external library call, so
  `compute_threshold` takes the quantile routine as an explicit function
  argument `quantile : List ℚ → Option ℚ` (the `Option` is the result of
  indexing the returned array at 0: `none` models the `IndexError` raised
  on an empty result).  The documented Spark guarantee — the returned value
  is a sample whose rank is within `relativeError * N` of `p * N` — is the
  predicate `quantileRankOK` and appears as a hypothesis where needed;
* Python raising an exception is modelled by `Except String`.
-/

namespace TaarLocale

/-- One element of the `active_addons` array of `clients_daily`. -/
structure ActiveAddon where
  addonId : Option String
  blocklisted : Bool
  addonType : String
  signedState : Int
  userDisabled : Bool
  appDisabled : Bool
  isSystem : Bool
deriving DecidableEq

/-- One row of the `clients_daily` source table (the fields the query reads). -/
structure ClientRow where
  clientId : String
  channel : String
  appName : String
  locale : Option String
  activeAddons : List ActiveAddon
deriving DecidableEq

/-- One row of the dataframe returned by `get_addons`:
`(pair_cnts, addon_key, locality)`. -/
structure AddonRow where
  locality : String
  addonKey : String
  pairCnts : Nat
deriving DecidableEq

/-- The output dictionary `{locale: [[addon_key, score], ...]}` as an
association list. -/
abbrev Dict := List (String × List (String × ℚ))

deriving instance DecidableEq for Except

/-! ## get_addons: the SQL extraction query -/

/-- The `sample` CTE: restrict to release-channel Firefox rows and explode
`active_addons`, keeping the row's locale alongside each addon record. -/
def sample (rows : List ClientRow) : List (Option String × ActiveAddon) :=
  (rows.filter (fun r => r.channel == "release" && r.appName == "Firefox")).flatMap
    (fun r => r.activeAddons.map (fun a => (r.locale, a)))

/-- The `filtered_sample` CTE: the structural WHERE clause applied to each
exploded `(locality, addon)` pair, projecting to `(locality, addon_key)`.
A SQL comparison with NULL is not TRUE, so a `none` locale or addon id is
dropped; `locality <> 'null'` additionally drops the literal string. -/
def filteredSample (rows : List ClientRow) : List (String × String) :=
  (sample rows).filterMap (fun la =>
    match la.1, la.2.addonId with
    | some l, some k =>
      if (!la.2.blocklisted) && (la.2.addonType == "extension") &&
         (la.2.signedState == 2) && (!la.2.userDisabled) &&
         (!la.2.appDisabled) && (!la.2.isSystem) && (l != "null")
      then some (l, k) else none
    | _, _ => none)

/-- The `country_addon_pairs` CTE: `COUNT(*) GROUP BY locality, addon_key`. -/
def countryAddonPairs (rows : List ClientRow) : List AddonRow :=
  ((filteredSample rows).dedup).map
    (fun k => ⟨k.1, k.2, (filteredSample rows).count k⟩)

/-- The final `ORDER BY locality, pair_cnts DESC` of `get_addons`. -/
def addonOrd (a b : AddonRow) : Prop :=
  a.locality < b.locality ∨ (a.locality = b.locality ∧ b.pairCnts ≤ a.pairCnts)

instance : DecidableRel addonOrd := fun a b =>
  decidable_of_iff
    (a.locality.toList < b.locality.toList ∨
      (a.locality = b.locality ∧ b.pairCnts ≤ a.pairCnts))
    (by unfold addonOrd; rw [String.lt_iff_toList_lt])

instance : IsTotal AddonRow addonOrd := by
  constructor
  intro a b
  rcases lt_trichotomy a.locality b.locality with h | h | h
  · exact Or.inl (Or.inl h)
  · rcases le_total b.pairCnts a.pairCnts with h2 | h2
    · exact Or.inl (Or.inr ⟨h, h2⟩)
    · exact Or.inr (Or.inr ⟨h.symm, h2⟩)
  · exact Or.inr (Or.inl h)

instance : IsTrans AddonRow addonOrd := by
  constructor
  intro a b c hab hbc
  rcases hab with h1 | ⟨e1, n1⟩
  · rcases hbc with h2 | ⟨e2, _⟩
    · exact Or.inl (h1.trans h2)
    · exact Or.inl (e2 ▸ h1)
  · rcases hbc with h2 | ⟨e2, n2⟩
    · exact Or.inl (e1 ▸ h2)
    · exact Or.inr ⟨e1.trans e2, n2.trans n1⟩

/-- The query `get_addons`: the full extraction query over the event table. -/
def get_addons (rows : List ClientRow) : List AddonRow :=
  (countryAddonPairs rows).insertionSort addonOrd

/-! ## compute_threshold -/

/-- Per-group total installs for one locale: `sum(pair_cnts)` over the
rows of that locale. -/
def groupTotal (df : List AddonRow) (g : String) : Nat :=
  ((df.filter (fun r => r.locality == g)).map (fun r => r.pairCnts)).sum

/-- The dataframe `addon_install_counts`: `groupBy("locality").agg({"pair_cnts": "sum"})`,
one `(locality, total)` row per distinct locale of the input. -/
def addonInstallCounts (df : List AddonRow) : List (String × Nat) :=
  ((df.map (fun r => r.locality)).dedup).map (fun l => (l, groupTotal df l))

/-- Spark's documented `approxQuantile` guarantee at probability `p` and
relative error `err`: the returned value is an element of the data whose
rank is within `err * N` of `p * N` (the error is on the rank, not on the
value).  We express the rank window by counting: at least `(p - err) * N`
elements are `≤ v` and at most `(p + err) * N` elements are `< v`. -/
def quantileRankOK (xs : List ℚ) (p err v : ℚ) : Prop :=
  v ∈ xs ∧
    (p - err) * xs.length ≤ (xs.countP (fun x => decide (x ≤ v)) : ℚ) ∧
    (xs.countP (fun x => decide (x < v)) : ℚ) ≤ (p + err) * xs.length

/-- The function `compute_threshold`: per-locale totals, 25th-percentile threshold with
a floor of 2000, and the filter keeping locales at or above the threshold.
`quantile` is the external `approxQuantile(_, [0.25], 0.2)` call composed
with indexing at 0; a `none` result is the `IndexError` the Python code
raises when the returned list is empty. -/
def compute_threshold (df : List AddonRow) (quantile : List ℚ → Option ℚ) :
    Except String (List (String × Nat)) :=
  match quantile ((addonInstallCounts df).map (fun t => (t.2 : ℚ))) with
  | none => Except.error ("IndexError: list index out of range")
  | some q =>
    Except.ok ((addonInstallCounts df).filter
      (fun t => decide ((if q < 2000 then (2000 : ℚ) else q) ≤ (t.2 : ℚ))))

/-! ## transform -/

/-- One row of `normalized_installs`: `(addon_key, locality, loc_norm)`. -/
structure NormRow where
  addonKey : String
  locality : String
  locNorm : ℚ
deriving DecidableEq

/-- The inner join `addon_df.join(df1, df2.locality == df1.locality)`:
each addon row paired with every matching `(locality, total)` row. -/
def combined (df : List AddonRow) (counts : List (String × Nat)) :
    List (AddonRow × Nat) :=
  df.flatMap (fun p => (counts.filter (fun c => c.1 == p.locality)).map
    (fun c => (p, c.2)))

/-- The helper `normalize_cnts`: `float(pair_cnts) / float(sum(pair_cnts))` as an
exact rational.  `mkRat p t` is the fraction `p / t`;
`normalize_cnts_eq_div` below proves it equal to the field division
`(p : ℚ) / (t : ℚ)`. -/
def normalize_cnts (pairCnts total : Nat) : ℚ := mkRat pairCnts total

lemma normalize_cnts_eq_div (p t : Nat) :
    normalize_cnts p t = (p : ℚ) / (t : ℚ) := by
  unfold normalize_cnts
  rw [Rat.mkRat_eq_div]
  push_cast
  ring

/-- The dataframe `normalized_installs`: the joined rows mapped to
`Row(addon_key, locality, loc_norm)`. -/
def normalizedInstalls (df : List AddonRow) (counts : List (String × Nat)) :
    List NormRow :=
  (combined df counts).map
    (fun pc => ⟨pc.1.addonKey, pc.1.locality, normalize_cnts pc.1.pairCnts pc.2⟩)

/-- The window order `partitionBy(locality).orderBy(desc("loc_norm"))`, as
a total preorder: partitions in locale order, `loc_norm` descending inside
a partition. -/
def windowOrd (a b : NormRow) : Prop :=
  a.locality < b.locality ∨ (a.locality = b.locality ∧ b.locNorm ≤ a.locNorm)

instance : DecidableRel windowOrd := fun a b =>
  decidable_of_iff
    (a.locality.toList < b.locality.toList ∨
      (a.locality = b.locality ∧ b.locNorm ≤ a.locNorm))
    (by unfold windowOrd; rw [String.lt_iff_toList_lt])

instance : IsTotal NormRow windowOrd := by
  constructor
  intro a b
  rcases lt_trichotomy a.locality b.locality with h | h | h
  · exact Or.inl (Or.inl h)
  · rcases le_total b.locNorm a.locNorm with h2 | h2
    · exact Or.inl (Or.inr ⟨h, h2⟩)
    · exact Or.inr (Or.inr ⟨h.symm, h2⟩)
  · exact Or.inr (Or.inl h)

instance : IsTrans NormRow windowOrd := by
  constructor
  intro a b c hab hbc
  rcases hab with h1 | ⟨e1, n1⟩
  · rcases hbc with h2 | ⟨e2, _⟩
    · exact Or.inl (h1.trans h2)
    · exact Or.inl (e2 ▸ h1)
  · rcases hbc with h2 | ⟨e2, n2⟩
    · exact Or.inl (e1 ▸ h2)
    · exact Or.inr ⟨e1.trans e2, n2.trans n1⟩

/-- The rows in window order (Spark sorts each partition to evaluate the
window function; collecting the dataframe afterwards yields this order). -/
def sortNorm (l : List NormRow) : List NormRow := l.insertionSort windowOrd

/-- Spark's `rank()` over the window: 1 plus the number of rows of the same
partition that sort strictly before the row's peers, i.e. with a strictly
larger `loc_norm`.  (This is rank with gaps, not `dense_rank`.) -/
def rankOf (rows : List NormRow) (r : NormRow) : Nat :=
  1 + (rows.filter (fun x => x.locality == r.locality)).countP
        (fun x => decide (r.locNorm < x.locNorm))

/-- The dataframe `truncated_df`: keep the rows whose window rank is at most
`num_addons`. -/
def truncatedDf (ni : List NormRow) (numAddons : Nat) : List NormRow :=
  (sortNorm ni).filter (fun r => rankOf (sortNorm ni) r ≤ numAddons)

/-- The function `transform`: join with the admitted-locale totals, normalize, rank,
truncate to `num_addons`, and build `{locale: [[addon_key, loc_norm], ...]}`. -/
def transform (df : List AddonRow) (counts : List (String × Nat))
    (numAddons : Nat) : Dict :=
  (((truncatedDf (normalizedInstalls df counts) numAddons).map
      (fun r => r.locality)).dedup).map
    (fun l => (l, ((truncatedDf (normalizedInstalls df counts) numAddons).filter
      (fun r => r.locality == l)).map (fun r => (r.addonKey, r.locNorm))))

/-! ## generate_dictionary -/

/-- The stages of `generate_dictionary` downstream of the extraction query:
whitelist filter, threshold, transform. -/
def pipelineFromPairs (df : List AddonRow) (amoWhitelist : List String)
    (quantile : List ℚ → Option ℚ) (numAddons : Nat) : Except String Dict :=
  match compute_threshold (df.filter (fun r => amoWhitelist.contains r.addonKey))
      quantile with
  | Except.error e => Except.error e
  | Except.ok counts =>
    Except.ok (transform (df.filter (fun r => amoWhitelist.contains r.addonKey))
      counts numAddons)

/-- The function `generate_dictionary`: extraction, whitelist filter, threshold,
transform. -/
def generate_dictionary (rows : List ClientRow) (amoWhitelist : List String)
    (quantile : List ℚ → Option ℚ) (numAddons : Nat) : Except String Dict :=
  pipelineFromPairs (get_addons rows) amoWhitelist quantile numAddons

/-! ## General list lemmas -/

lemma countP_lt_countP {α : Type} {p q : α → Bool} {l : List α}
    (hpq : ∀ x ∈ l, p x = true → q x = true) {a : α} (ha : a ∈ l)
    (hqa : q a = true) (hpa : p a = false) : l.countP p < l.countP q := by
  induction l with
  | nil => cases ha
  | cons b l ih =>
    rw [List.countP_cons, List.countP_cons]
    rcases List.mem_cons.mp ha with rfl | hmem
    · have hmono := List.countP_mono_left
        (fun x hx hp => hpq x (List.mem_cons_of_mem _ hx) hp)
      rw [hpa, hqa, if_neg Bool.false_ne_true, if_pos rfl]
      omega
    · have hlt := ih (fun x hx hp => hpq x (List.mem_cons_of_mem _ hx) hp) hmem
      have hmono : (if p b = true then 1 else 0) ≤ (if q b = true then 1 else 0) := by
        by_cases hb : p b = true
        · rw [if_pos hb, if_pos (hpq b (List.mem_cons_self _ _) hb)]
        · rw [if_neg hb]; omega
      omega

lemma sorted_asc_countP_le_ge {s : List ℚ} (hs : s.Sorted (fun a b : ℚ => a ≤ b))
    {k : ℕ} (hk : k < s.length) :
    k + 1 ≤ s.countP (fun x => decide (x ≤ s[k])) := by
  have hlen : (s.take (k + 1)).length = k + 1 := by
    rw [List.length_take]; omega
  have hall : ∀ x ∈ s.take (k + 1), (fun x => decide (x ≤ s[k])) x = true := by
    intro x hx
    rcases List.mem_iff_getElem.mp hx with ⟨i, hi, rfl⟩
    have hik : i ≤ k := by
      rw [List.length_take] at hi; omega
    have hi2 : i < s.length := by omega
    simp only [decide_eq_true_eq]
    rw [List.getElem_take]
    rcases Nat.lt_or_ge i k with hlt | hge
    · exact List.pairwise_iff_getElem.mp hs i k hi2 hk hlt
    · have : i = k := by omega
      subst this; exact le_refl _
  calc k + 1 = (s.take (k + 1)).countP (fun x => decide (x ≤ s[k])) := by
        rw [List.countP_eq_length.mpr hall, hlen]
    _ ≤ s.countP (fun x => decide (x ≤ s[k])) :=
        (List.take_sublist _ _).countP_le _

lemma sorted_asc_countP_lt_le {s : List ℚ} (hs : s.Sorted (fun a b : ℚ => a ≤ b))
    {k : ℕ} (hk : k < s.length) :
    s.countP (fun x => decide (x < s[k])) ≤ k := by
  obtain ⟨v, hv⟩ : ∃ v, s[k] = v := ⟨s[k], rfl⟩
  rw [hv]
  have hsplit : s.countP (fun x => decide (x < v)) =
      (s.take k).countP (fun x => decide (x < v)) +
      (s.drop k).countP (fun x => decide (x < v)) := by
    conv_lhs => rw [← List.take_append_drop k s]
    rw [List.countP_append]
  have h1 : (s.take k).countP (fun x => decide (x < v)) ≤ k := by
    calc (s.take k).countP (fun x => decide (x < v)) ≤ (s.take k).length := by
          rw [List.countP_eq_length_filter]; exact List.length_filter_le _ _
      _ ≤ k := by rw [List.length_take]; omega
  have h2 : (s.drop k).countP (fun x => decide (x < v)) = 0 := by
    rw [List.countP_eq_zero]
    intro x hx
    rcases List.mem_iff_getElem.mp hx with ⟨j, hj, rfl⟩
    simp only [decide_eq_true_eq, not_lt]
    rw [List.getElem_drop]
    have hkj : k + j < s.length := by
      rw [List.length_drop] at hj; omega
    rcases Nat.eq_zero_or_pos j with hj0 | hjpos
    · subst hj0
      have heq : s[k] = s[k + 0] := by congr 1
      rw [← heq, hv]
    · have := List.pairwise_iff_getElem.mp hs k (k + j) hk hkj (by omega)
      rw [hv] at this; exact this
  omega

/-! ## A concrete quantile routine satisfying the Spark contract -/

/-- An exact quantile implementation: sort ascending and index at
`⌊N/4⌋`.  It is a valid implementation of `approxQuantile(_, [0.25], 0.2)`
(it satisfies `quantileRankOK` with room to spare, and returns no value on
an empty input); witnesses instantiate the external quantile argument with
it. -/
def simpleQuantile (xs : List ℚ) : Option ℚ :=
  (xs.insertionSort (fun a b : ℚ => a ≤ b))[xs.length / 4]?

lemma simpleQuantile_contract (xs : List ℚ) (hne : xs ≠ []) :
    ∃ v, simpleQuantile xs = some v ∧ quantileRankOK xs (1/4) (1/5) v := by
  have hperm := List.perm_insertionSort (fun a b : ℚ => a ≤ b) xs
  have hsorted := List.sorted_insertionSort (fun a b : ℚ => a ≤ b) xs
  have hlen : (xs.insertionSort (fun a b : ℚ => a ≤ b)).length = xs.length :=
    hperm.length_eq
  have hN : 0 < xs.length := List.length_pos.mpr hne
  have hk : xs.length / 4 < (xs.insertionSort (fun a b : ℚ => a ≤ b)).length := by
    rw [hlen]; exact Nat.div_lt_self hN (by norm_num)
  refine ⟨(xs.insertionSort (fun a b : ℚ => a ≤ b))[xs.length / 4], ?_, ?_⟩
  · unfold simpleQuantile
    exact List.getElem?_eq_getElem hk
  unfold quantileRankOK
  refine ⟨?_, ?_, ?_⟩
  · exact hperm.mem_iff.mp (List.getElem_mem hk)
  · have hcnt := sorted_asc_countP_le_ge hsorted hk
    rw [hperm.countP_eq] at hcnt
    have hdiv : xs.length ≤ 4 * (xs.length / 4) + 3 := by
      have h1 := Nat.div_add_mod xs.length 4
      have h2 : xs.length % 4 < 4 := Nat.mod_lt _ (by norm_num)
      omega
    have hq : (xs.length : ℚ) ≤ 4 * ((xs.length / 4 : ℕ) : ℚ) + 3 := by
      exact_mod_cast hdiv
    have hcq : ((xs.length / 4 : ℕ) : ℚ) + 1 ≤
        (xs.countP (fun x => decide (x ≤ (xs.insertionSort (fun a b : ℚ => a ≤ b))[xs.length / 4])) : ℚ) := by
      exact_mod_cast hcnt
    have hk0 : (0 : ℚ) ≤ ((xs.length / 4 : ℕ) : ℚ) := by positivity
    linarith
  · have hcnt := sorted_asc_countP_lt_le hsorted hk
    rw [hperm.countP_eq] at hcnt
    have h4 : 4 * (xs.length / 4) ≤ xs.length := by
      have h1 := Nat.div_mul_le_self xs.length 4
      omega
    have hq : 4 * ((xs.length / 4 : ℕ) : ℚ) ≤ (xs.length : ℚ) := by
      exact_mod_cast h4
    have hcq : (xs.countP (fun x => decide (x < (xs.insertionSort (fun a b : ℚ => a ≤ b))[xs.length / 4])) : ℚ) ≤
        ((xs.length / 4 : ℕ) : ℚ) := by
      exact_mod_cast hcnt
    have hN0 : (0 : ℚ) ≤ (xs.length : ℚ) := by positivity
    linarith

/-- The contract of the external `approxQuantile([p], err)[0]` call: on a
nonempty column it returns a data value whose rank error is within `err`
of the requested probability. -/
def approxQuantileContract (p err : ℚ) (quantile : List ℚ → Option ℚ) : Prop :=
  ∀ xs : List ℚ, xs ≠ [] → ∃ v, quantile xs = some v ∧ quantileRankOK xs p err v

lemma simpleQuantile_is_contract :
    approxQuantileContract (1/4) (1/5) simpleQuantile :=
  simpleQuantile_contract

/-! ## compute_threshold lemmas -/

lemma mem_addonInstallCounts {df : List AddonRow} {g : String} {t : Nat} :
    (g, t) ∈ addonInstallCounts df ↔
      ((∃ p ∈ df, p.locality = g) ∧ t = groupTotal df g) := by
  unfold addonInstallCounts
  constructor
  · intro h
    rcases List.mem_map.mp h with ⟨l, hl, heq⟩
    cases heq
    refine ⟨?_, rfl⟩
    rcases List.mem_map.mp (List.mem_dedup.mp hl) with ⟨p, hp, hpl⟩
    exact ⟨p, hp, hpl⟩
  · rintro ⟨⟨p, hp, rfl⟩, rfl⟩
    exact List.mem_map.mpr
      ⟨p.locality, List.mem_dedup.mpr (List.mem_map.mpr ⟨p, hp, rfl⟩), rfl⟩

lemma addonInstallCounts_keys_nodup (df : List AddonRow) :
    ((addonInstallCounts df).map Prod.fst).Nodup := by
  unfold addonInstallCounts
  rw [List.map_map]
  have h : (Prod.fst ∘ fun l => (l, groupTotal df l)) = id := rfl
  rw [h, List.map_id]
  exact List.nodup_dedup _

lemma addonInstallCounts_ne_nil {df : List AddonRow} (h : df ≠ []) :
    addonInstallCounts df ≠ [] := by
  unfold addonInstallCounts
  intro hc
  rcases List.map_eq_nil_iff.mp hc with hd
  rw [List.dedup_eq_nil, List.map_eq_nil_iff] at hd
  exact h hd

lemma compute_threshold_of_some {df : List AddonRow}
    {quantile : List ℚ → Option ℚ} {v : ℚ}
    (hq : quantile ((addonInstallCounts df).map (fun t => (t.2 : ℚ))) = some v) :
    compute_threshold df quantile =
      Except.ok ((addonInstallCounts df).filter
        (fun t => decide ((if v < 2000 then (2000 : ℚ) else v) ≤ (t.2 : ℚ)))) := by
  unfold compute_threshold
  rw [hq]

lemma mem_threshold_filter {df : List AddonRow} {v : ℚ} {g : String} {t : Nat} :
    (g, t) ∈ (addonInstallCounts df).filter
        (fun t => decide ((if v < 2000 then (2000 : ℚ) else v) ≤ (t.2 : ℚ))) ↔
      ((∃ p ∈ df, p.locality = g) ∧ t = groupTotal df g ∧
        (if v < 2000 then (2000 : ℚ) else v) ≤ (t : ℚ)) := by
  rw [List.mem_filter, mem_addonInstallCounts]
  simp only [decide_eq_true_eq]
  tauto

/-- C1: the Threshold Filter computes each locale's total install count,
obtains the approximate 25th percentile of those totals (a value of the
data whose rank is within the relative error 0.2 of the true 25th
percentile, per the `approxQuantile` contract), floors it at 2000, and
returns exactly the locales whose total meets or exceeds the resulting
threshold, each paired with its total. -/
theorem C1_threshold_filter (df : List AddonRow) (quantile : List ℚ → Option ℚ)
    (hne : df ≠ []) (hc : approxQuantileContract (1/4) (1/5) quantile) :
    ∃ v out,
      quantileRankOK ((addonInstallCounts df).map (fun t => (t.2 : ℚ)))
        (1/4) (1/5) v ∧
      compute_threshold df quantile = Except.ok out ∧
      ∀ g t, (g, t) ∈ out ↔
        ((∃ p ∈ df, p.locality = g) ∧ t = groupTotal df g ∧
          (if v < 2000 then (2000 : ℚ) else v) ≤ (t : ℚ)) := by
  have hxs : ((addonInstallCounts df).map (fun t => (t.2 : ℚ))) ≠ [] := by
    intro hmap
    exact addonInstallCounts_ne_nil hne (List.map_eq_nil_iff.mp hmap)
  rcases hc _ hxs with ⟨v, hv, hrank⟩
  refine ⟨v, _, hrank, compute_threshold_of_some hv, ?_⟩
  intro g t
  exact mem_threshold_filter

/-- Input data for the C1 and C9 witnesses: a single locale whose total
clears the 2000 floor. -/
def c1df : List AddonRow := [⟨"de", "a", 3000⟩]

theorem C1_threshold_filter_witness :
    c1df ≠ [] ∧
    ∃ v out,
      quantileRankOK ((addonInstallCounts c1df).map (fun t => (t.2 : ℚ)))
        (1/4) (1/5) v ∧
      compute_threshold c1df simpleQuantile = Except.ok out ∧
      ∀ g t, (g, t) ∈ out ↔
        ((∃ p ∈ c1df, p.locality = g) ∧ t = groupTotal c1df g ∧
          (if v < 2000 then (2000 : ℚ) else v) ≤ (t : ℚ)) :=
  ⟨by decide,
   C1_threshold_filter c1df simpleQuantile (by decide) simpleQuantile_is_contract⟩

/-- C10: on an empty pair-count input the Threshold Filter raises (the
quantile call yields no value, so indexing its result fails with an
IndexError) instead of returning an empty list of admitted locales. -/
theorem C10_empty_input_raises (quantile : List ℚ → Option ℚ)
    (h : quantile [] = none) :
    compute_threshold ([] : List AddonRow) quantile =
      Except.error ("IndexError: list index out of range") := by
  unfold compute_threshold
  have hnil : ((addonInstallCounts ([] : List AddonRow)).map
      (fun t => (t.2 : ℚ))) = [] := rfl
  rw [hnil, h]

theorem C10_empty_input_raises_witness :
    simpleQuantile [] = none ∧
    compute_threshold ([] : List AddonRow) simpleQuantile =
      Except.error ("IndexError: list index out of range") :=
  ⟨rfl, C10_empty_input_raises simpleQuantile rfl⟩

/-! ## The spec's two concrete scenarios -/

/-- The pair counts of the spec's scenarios:
`{(de,a): 300, (de,b): 100, (fr,a): 10}`. -/
def c23df : List AddonRow := [⟨"de", "a", 300⟩, ⟨"de", "b", 100⟩, ⟨"fr", "a", 10⟩]

/-- C2: with the scenario pair counts, K = 1 and every addon whitelisted,
every locale total (de = 400, fr = 10) is below the 2000 floor, so the
pipeline returns the empty dictionary normally (an `Except.ok`, not an
error), whatever value the quantile call picked from the totals. -/
theorem C2_all_below_floor (quantile : List ℚ → Option ℚ) (v : ℚ)
    (hq : quantile [(400 : ℚ), (10 : ℚ)] = some v)
    (hv : v ∈ [(400 : ℚ), (10 : ℚ)]) :
    pipelineFromPairs c23df ["a", "b"] quantile 1 = Except.ok [] := by
  have hfil : c23df.filter (fun r => ["a", "b"].contains r.addonKey) = c23df := by
    decide
  have hmap : ((addonInstallCounts c23df).map (fun t => (t.2 : ℚ))) =
      [(400 : ℚ), (10 : ℚ)] := by decide
  have hv2000 : v < 2000 := by
    rcases List.mem_cons.mp hv with rfl | hv2
    · norm_num
    · rcases List.mem_cons.mp hv2 with rfl | hnil
      · norm_num
      · cases hnil
  have hok : compute_threshold c23df quantile = Except.ok [] := by
    rw [@compute_threshold_of_some c23df quantile v (by rw [hmap]; exact hq)]
    congr 1
    rw [if_pos hv2000]
    decide
  unfold pipelineFromPairs
  rw [hfil, hok]
  rfl

theorem C2_all_below_floor_witness :
    simpleQuantile [(400 : ℚ), (10 : ℚ)] = some 10 ∧
    (10 : ℚ) ∈ [(400 : ℚ), (10 : ℚ)] ∧
    pipelineFromPairs c23df ["a", "b"] simpleQuantile 1 = Except.ok [] :=
  ⟨by decide, by decide, C2_all_below_floor simpleQuantile 10 (by decide) (by decide)⟩

/-- C3: in the variant where locale `de` (total 400) is admitted by the
threshold and `fr` is not, the transform returns exactly
`{"de": [["a", 0.75]]}`: the top-1 entry of `de` with score
300/400 = 3/4, and no key for `fr`. -/
theorem C3_scenario :
    transform c23df [("de", 400)] 1 = [("de", [("a", mkRat 3 4)])] ∧
    mkRat 3 4 = (3 : ℚ)/4 := by
  constructor
  · decide
  · rw [Rat.mkRat_eq_div]; norm_num

/-! ## transform lemmas -/

lemma sortNorm_perm (l : List NormRow) : (sortNorm l).Perm l :=
  List.perm_insertionSort _ _

lemma sortNorm_sorted (l : List NormRow) : (sortNorm l).Sorted windowOrd :=
  List.sorted_insertionSort _ _

lemma mem_transform {df : List AddonRow} {counts : List (String × Nat)}
    {K : Nat} {g : String} {l : List (String × ℚ)} :
    (g, l) ∈ transform df counts K ↔
      ((∃ r ∈ truncatedDf (normalizedInstalls df counts) K, r.locality = g) ∧
       l = ((truncatedDf (normalizedInstalls df counts) K).filter
         (fun r => r.locality == g)).map (fun r => (r.addonKey, r.locNorm))) := by
  unfold transform
  constructor
  · intro h
    rcases List.mem_map.mp h with ⟨x, hx, heq⟩
    cases heq
    refine ⟨?_, rfl⟩
    rcases List.mem_map.mp (List.mem_dedup.mp hx) with ⟨r, hr, hrl⟩
    exact ⟨r, hr, hrl⟩
  · rintro ⟨⟨r, hr, rfl⟩, rfl⟩
    exact List.mem_map.mpr
      ⟨r.locality, List.mem_dedup.mpr (List.mem_map.mpr ⟨r, hr, rfl⟩), rfl⟩

lemma mem_normalizedInstalls {df : List AddonRow} {counts : List (String × Nat)}
    {r : NormRow} :
    r ∈ normalizedInstalls df counts ↔
      ∃ p ∈ df, ∃ c ∈ counts, c.1 = p.locality ∧
        r = ⟨p.addonKey, p.locality, normalize_cnts p.pairCnts c.2⟩ := by
  unfold normalizedInstalls combined
  rw [List.mem_map]
  constructor
  · rintro ⟨pc, hpc, rfl⟩
    rcases List.mem_flatMap.mp hpc with ⟨p, hp, hin⟩
    rcases List.mem_map.mp hin with ⟨c, hc, heq⟩
    cases heq
    have hc2 := List.mem_filter.mp hc
    exact ⟨p, hp, c, hc2.1, by simpa using hc2.2, rfl⟩
  · rintro ⟨p, hp, c, hc, hcl, rfl⟩
    refine ⟨(p, c.2), ?_, rfl⟩
    exact List.mem_flatMap.mpr
      ⟨p, hp, List.mem_map.mpr ⟨c, List.mem_filter.mpr ⟨hc, by simpa using hcl⟩, rfl⟩⟩

lemma mem_truncatedDf {ni : List NormRow} {K : Nat} {r : NormRow} :
    r ∈ truncatedDf ni K ↔ (r ∈ ni ∧ rankOf (sortNorm ni) r ≤ K) := by
  unfold truncatedDf
  rw [List.mem_filter]
  constructor
  · rintro ⟨h1, h2⟩
    exact ⟨(sortNorm_perm ni).mem_iff.mp h1, by simpa using h2⟩
  · rintro ⟨h1, h2⟩
    exact ⟨(sortNorm_perm ni).mem_iff.mpr h1, by simpa using h2⟩

lemma transform_entry_source {df : List AddonRow} {counts : List (String × Nat)}
    {K : Nat} {g : String} {l : List (String × ℚ)} {k : String} {s : ℚ}
    (hgl : (g, l) ∈ transform df counts K) (hks : (k, s) ∈ l) :
    ∃ p ∈ df, ∃ c ∈ counts, c.1 = p.locality ∧ p.locality = g ∧
      p.addonKey = k ∧ s = normalize_cnts p.pairCnts c.2 := by
  rcases mem_transform.mp hgl with ⟨-, rfl⟩
  rcases List.mem_map.mp hks with ⟨r, hr, heq⟩
  have hfil := List.mem_filter.mp hr
  have hloc : r.locality = g := by simpa using hfil.2
  have hni := (mem_truncatedDf.mp hfil.1).1
  rcases mem_normalizedInstalls.mp hni with ⟨p, hp, c, hc, hcl, hre⟩
  subst hre
  cases heq
  exact ⟨p, hp, c, hc, hcl, hloc, rfl, rfl⟩

lemma filter_comm_bool {α : Type} (p q : α → Bool) (l : List α) :
    (l.filter p).filter q = (l.filter q).filter p := by
  rw [List.filter_filter, List.filter_filter]
  exact List.filter_congr (fun x _ => Bool.and_comm _ _)

/-- C5: in every group of the output dictionary, the `[addon_key, score]`
entries are sorted descending by score (each score is at least the next
one), the order produced by the ranking window. -/
theorem C5_entries_sorted_desc (df : List AddonRow) (counts : List (String × Nat))
    (K : Nat) (g : String) (l : List (String × ℚ))
    (h : (g, l) ∈ transform df counts K) :
    l.Sorted (fun a b : String × ℚ => b.2 ≤ a.2) := by
  rcases mem_transform.mp h with ⟨-, rfl⟩
  have hs : ((truncatedDf (normalizedInstalls df counts) K).filter
      (fun r => r.locality == g)).Sorted windowOrd :=
    ((sortNorm_sorted _).filter _).filter _
  have hpair : ((truncatedDf (normalizedInstalls df counts) K).filter
      (fun r => r.locality == g)).Pairwise
      (fun a b : NormRow => b.locNorm ≤ a.locNorm) := by
    refine hs.imp_of_mem ?_
    intro a b ha hb hab
    have hag : a.locality = g := by simpa using (List.mem_filter.mp ha).2
    have hbg : b.locality = g := by simpa using (List.mem_filter.mp hb).2
    rcases hab with hlt | ⟨-, hle⟩
    · exfalso
      rw [hag, hbg] at hlt
      exact lt_irrefl _ hlt
    · exact hle
  show List.Pairwise _ _
  rw [List.pairwise_map]
  exact hpair

theorem C5_entries_sorted_desc_witness :
    (("de", [("a", mkRat 3 4)]) ∈ transform c23df [("de", 400)] 1) ∧
    List.Sorted (fun a b : String × ℚ => b.2 ≤ a.2) [("a", mkRat 3 4)] :=
  ⟨by decide,
   C5_entries_sorted_desc c23df [("de", 400)] 1 ("de") [("a", mkRat 3 4)] (by decide)⟩

/-! ## C4: ranking and truncation -/

/-- Two addons of one locale with tied counts: both get window rank 1. -/
def c4df : List AddonRow := [⟨"x", "a", 1⟩, ⟨"x", "b", 1⟩]

/-- C4 counterexample: with `K = 1` and the tied pair counts of `c4df`,
both entries of locale `x` receive rank 1, so the output keeps 2 entries —
more than `K` — refuting the at-most-K part of the claim. -/
theorem C4_counterexample :
    transform c4df [("x", 2)] 1 =
      [("x", [("a", mkRat 1 2), ("b", mkRat 1 2)])] ∧
    ¬ (((transform c4df [("x", 2)] 1).map (fun gl => gl.2.length)).all
        (fun n => n ≤ 1) = true) := by
  constructor
  · decide
  · decide

lemma rankOf_eq_of_locality {s : List NormRow} {r : NormRow} {g : String}
    (hr : r.locality = g) :
    rankOf s r = 1 + (s.filter (fun x => x.locality == g)).countP
      (fun x => decide (r.locNorm < x.locNorm)) := by
  unfold rankOf
  rw [hr]

lemma countP_ne_of_locNorm_lt {G : List NormRow} {a b : NormRow}
    (ha : a ∈ G) (hab : b.locNorm < a.locNorm) :
    G.countP (fun x => decide (a.locNorm < x.locNorm)) <
      G.countP (fun x => decide (b.locNorm < x.locNorm)) := by
  refine countP_lt_countP ?_ ha ?_ ?_
  · intro x _ hx
    rw [decide_eq_true_eq] at hx ⊢
    exact lt_trans hab hx
  · rw [decide_eq_true_eq]
    exact hab
  · rw [decide_eq_false_iff_not]
    exact lt_irrefl _

/-- Competition rank is injective across entries of a group with pairwise
distinct scores, so at most `K` entries can have rank at most `K`. -/
lemma length_filter_rank_le (s : List NormRow) (K : Nat) (g : String)
    (hdist : (s.filter (fun r => r.locality == g)).Pairwise
      (fun a b => a.locNorm ≠ b.locNorm)) :
    ((s.filter (fun r => r.locality == g)).filter
      (fun r => rankOf s r ≤ K)).length ≤ K := by
  set G := s.filter (fun r => r.locality == g) with hG
  set R := G.filter (fun r => rankOf s r ≤ K) with hR
  have hsubG : ∀ r ∈ R, r ∈ G := fun r hr => (List.mem_filter.mp hr).1
  have hlocG : ∀ r ∈ G, r.locality = g := fun r hr => by
    simpa using (List.mem_filter.mp hr).2
  have hrank : ∀ r ∈ R, rankOf s r ≤ K := fun r hr => by
    simpa using (List.mem_filter.mp hr).2
  have hcnt : ∀ r ∈ R, G.countP (fun x => decide (r.locNorm < x.locNorm)) < K := by
    intro r hr
    have h1 := hrank r hr
    rw [rankOf_eq_of_locality (hlocG r (hsubG r hr)), ← hG] at h1
    omega
  have hdistR : R.Pairwise (fun a b => a.locNorm ≠ b.locNorm) :=
    hdist.filter _
  have hcinj : R.Pairwise (fun a b =>
      G.countP (fun x => decide (a.locNorm < x.locNorm)) ≠
      G.countP (fun x => decide (b.locNorm < x.locNorm))) := by
    refine hdistR.imp_of_mem ?_
    intro a b ha hb hne
    rcases lt_or_gt_of_ne hne with hlt | hgt
    · exact (Nat.ne_of_lt (countP_ne_of_locNorm_lt (hsubG b hb) hlt)).symm
    · exact Nat.ne_of_lt (countP_ne_of_locNorm_lt (hsubG a ha) hgt)
  have hnodup : (R.map (fun r =>
      G.countP (fun x => decide (r.locNorm < x.locNorm)))).Nodup :=
    List.pairwise_map.mpr hcinj
  have hsub : (R.map (fun r =>
      G.countP (fun x => decide (r.locNorm < x.locNorm)))).toFinset ⊆
      Finset.range K := by
    intro n hn
    rw [List.mem_toFinset] at hn
    rcases List.mem_map.mp hn with ⟨r, hr, rfl⟩
    rw [Finset.mem_range]
    exact hcnt r hr
  have hlen : R.length ≤ K := by
    calc R.length
        = (R.map (fun r =>
            G.countP (fun x => decide (r.locNorm < x.locNorm)))).length := by
          rw [List.length_map]
      _ = (R.map (fun r =>
            G.countP (fun x => decide (r.locNorm < x.locNorm)))).toFinset.card := by
          rw [List.toFinset_card_of_nodup hnodup]
      _ ≤ (Finset.range K).card := Finset.card_le_card hsub
      _ = K := Finset.card_range K
  exact hlen

/-- C4 (amended): the ranker assigns each row Spark's `rank()` — one plus
the number of strictly higher-scored rows of the same locale (competition
rank with gaps, not a dense rank) — and retains exactly the rows whose
rank is at most K; when the scores within a locale are pairwise distinct
this keeps at most K entries, but score ties can push a locale past K
(`C4_counterexample`). -/
theorem C4_rank_truncation (df : List AddonRow) (counts : List (String × Nat))
    (K : Nat) (g : String) (l : List (String × ℚ))
    (h : (g, l) ∈ transform df counts K) :
    l = (((sortNorm (normalizedInstalls df counts)).filter
          (fun r => r.locality == g)).filter
          (fun r => rankOf (sortNorm (normalizedInstalls df counts)) r ≤ K)).map
        (fun r => (r.addonKey, r.locNorm)) ∧
    (((normalizedInstalls df counts).filter
        (fun r => r.locality == g)).Pairwise
        (fun a b => a.locNorm ≠ b.locNorm) → l.length ≤ K) := by
  rcases mem_transform.mp h with ⟨-, rfl⟩
  have hcomm : (truncatedDf (normalizedInstalls df counts) K).filter
        (fun r => r.locality == g) =
      ((sortNorm (normalizedInstalls df counts)).filter
        (fun r => r.locality == g)).filter
        (fun r => rankOf (sortNorm (normalizedInstalls df counts)) r ≤ K) := by
    unfold truncatedDf
    exact filter_comm_bool _ _ _
  constructor
  · rw [hcomm]
  · intro hdist
    have hdistS : ((sortNorm (normalizedInstalls df counts)).filter
        (fun r => r.locality == g)).Pairwise
        (fun a b => a.locNorm ≠ b.locNorm) := by
    -- transfer along the permutation between the sorted and original rows
      refine (List.Perm.pairwise_iff (fun hxy => hxy.symm) ?_).mpr hdist
      exact (sortNorm_perm _).filter _
    rw [List.length_map, hcomm]
    exact length_filter_rank_le _ K g hdistS

theorem C4_rank_truncation_witness :
    (("de", [("a", mkRat 3 4)]) ∈ transform c23df [("de", 400)] 1) ∧
    ([("a", mkRat 3 4)] =
      (((sortNorm (normalizedInstalls c23df [("de", 400)])).filter
          (fun r => r.locality == "de")).filter
          (fun r => rankOf (sortNorm (normalizedInstalls c23df [("de", 400)])) r ≤ 1)).map
        (fun r => (r.addonKey, r.locNorm)) ∧
     (((normalizedInstalls c23df [("de", 400)]).filter
        (fun r => r.locality == "de")).Pairwise
        (fun a b => a.locNorm ≠ b.locNorm) →
       ([("a", mkRat 3 4)] : List (String × ℚ)).length ≤ 1)) :=
  ⟨by decide,
   C4_rank_truncation c23df [("de", 400)] 1 ("de") [("a", mkRat 3 4)] (by decide)⟩

/-! ## Inversion of a successful compute_threshold -/

lemma compute_threshold_ok_inv {df : List AddonRow}
    {quantile : List ℚ → Option ℚ} {counts : List (String × Nat)}
    (h : compute_threshold df quantile = Except.ok counts) :
    ∃ v : ℚ,
      quantile ((addonInstallCounts df).map (fun t => (t.2 : ℚ))) = some v ∧
      counts = (addonInstallCounts df).filter
        (fun t => decide ((if v < 2000 then (2000 : ℚ) else v) ≤ (t.2 : ℚ))) := by
  unfold compute_threshold at h
  cases hq : quantile ((addonInstallCounts df).map (fun t => (t.2 : ℚ))) with
  | none => rw [hq] at h; cases h
  | some v =>
    rw [hq] at h
    injection h with h2
    exact ⟨v, rfl, h2.symm⟩

lemma counts_entry_inv {df : List AddonRow} {quantile : List ℚ → Option ℚ}
    {counts : List (String × Nat)}
    (h : compute_threshold df quantile = Except.ok counts)
    {c : String × Nat} (hc : c ∈ counts) :
    c.2 = groupTotal df c.1 ∧ (2000 : ℚ) ≤ (c.2 : ℚ) := by
  rcases compute_threshold_ok_inv h with ⟨v, -, rfl⟩
  have hm := List.mem_filter.mp hc
  have h1 : (c.1, c.2) ∈ addonInstallCounts df := by
    rw [Prod.mk.eta]
    exact hm.1
  have h2 := (mem_addonInstallCounts.mp h1).2
  refine ⟨h2, ?_⟩
  have hthr : (2000 : ℚ) ≤ (if v < 2000 then (2000 : ℚ) else v) := by
    split_ifs with hv
    · exact le_refl _
    · exact le_of_not_lt hv
  have hle : (if v < 2000 then (2000 : ℚ) else v) ≤ (c.2 : ℚ) := by
    have := hm.2
    rw [decide_eq_true_eq] at this
    exact this
  exact le_trans hthr hle

lemma counts_keys_nodup {df : List AddonRow} {quantile : List ℚ → Option ℚ}
    {counts : List (String × Nat)}
    (h : compute_threshold df quantile = Except.ok counts) :
    (counts.map Prod.fst).Nodup := by
  rcases compute_threshold_ok_inv h with ⟨v, -, rfl⟩
  exact List.Nodup.sublist (List.Sublist.map Prod.fst (List.filter_sublist _))
    (addonInstallCounts_keys_nodup df)

/-! ## C6 and C8: whitelist and normalization denominator -/

/-- C6: every item key appearing in the output dictionary of
`generate_dictionary` is a member of the supplied AMO whitelist; no
non-whitelisted addon ever appears. -/
theorem C6_whitelist_closed (rows : List ClientRow) (wl : List String)
    (quantile : List ℚ → Option ℚ) (K : Nat) (d : Dict)
    (g : String) (l : List (String × ℚ)) (k : String) (s : ℚ)
    (hok : generate_dictionary rows wl quantile K = Except.ok d)
    (hg : (g, l) ∈ d) (hk : (k, s) ∈ l) : k ∈ wl := by
  unfold generate_dictionary pipelineFromPairs at hok
  cases hth : compute_threshold ((get_addons rows).filter
      (fun r => wl.contains r.addonKey)) quantile with
  | error e => rw [hth] at hok; cases hok
  | ok counts =>
    rw [hth] at hok
    injection hok with hok2
    subst hok2
    rcases transform_entry_source hg hk with ⟨p, hp, -, -, -, -, hkey, -⟩
    have hwl := (List.mem_filter.mp hp).2
    rw [← hkey]
    simpa [List.contains] using hwl

/-- Pair counts where the whitelist excludes addon `b`: the Extractor
total of `de` is 4000, but the pipeline normalizes by the
whitelist-filtered total 2000. -/
def c8df : List AddonRow := [⟨"de", "a", 2000⟩, ⟨"de", "b", 2000⟩]

/-- C8 counterexample: the output score of `(de, a)` is 2000/2000 = 1,
not `pair_count / Extractor group total` = 2000/4000, because the
whitelist filter is applied before the totals are computed. -/
theorem C8_counterexample :
    pipelineFromPairs c8df ["a"] simpleQuantile 10 =
      Except.ok [("de", [("a", mkRat 2000 2000)])] ∧
    groupTotal c8df ("de") = 4000 ∧
    ¬ (mkRat 2000 2000 = normalize_cnts 2000 (groupTotal c8df ("de"))) := by
  refine ⟨by decide, by decide, by decide⟩

/-- C8 (amended): every output score equals
`pair_count / (whitelist-filtered group total)`: the whitelist filter runs
before the Threshold Filter, so both the admitted-locale totals and the
normalization denominator range over whitelisted addons only. -/
theorem C8_denominator (df : List AddonRow) (wl : List String)
    (quantile : List ℚ → Option ℚ) (K : Nat) (d : Dict)
    (g : String) (l : List (String × ℚ)) (k : String) (s : ℚ)
    (hok : pipelineFromPairs df wl quantile K = Except.ok d)
    (hg : (g, l) ∈ d) (hk : (k, s) ∈ l) :
    ∃ p ∈ df.filter (fun r => wl.contains r.addonKey),
      p.locality = g ∧ p.addonKey = k ∧
      s = normalize_cnts p.pairCnts
        (groupTotal (df.filter (fun r => wl.contains r.addonKey)) g) := by
  unfold pipelineFromPairs at hok
  cases hth : compute_threshold (df.filter
      (fun r => wl.contains r.addonKey)) quantile with
  | error e => rw [hth] at hok; cases hok
  | ok counts =>
    rw [hth] at hok
    injection hok with hok2
    subst hok2
    rcases transform_entry_source hg hk with ⟨p, hp, c, hc, hcl, hlg, hkey, hs⟩
    refine ⟨p, hp, hlg, hkey, ?_⟩
    have htot := (counts_entry_inv hth hc).1
    rw [hs, htot, hcl, hlg]

theorem C8_denominator_witness :
    (pipelineFromPairs c8df ["a"] simpleQuantile 10 =
      Except.ok [("de", [("a", mkRat 2000 2000)])]) ∧
    ∃ p ∈ c8df.filter (fun r => (["a"] : List String).contains r.addonKey),
      p.locality = "de" ∧ p.addonKey = "a" ∧
      mkRat 2000 2000 = normalize_cnts p.pairCnts
        (groupTotal (c8df.filter (fun r => (["a"] : List String).contains r.addonKey)) ("de")) :=
  ⟨by decide,
   C8_denominator c8df ["a"] simpleQuantile 10
     [("de", [("a", mkRat 2000 2000)])] "de" [("a", mkRat 2000 2000)]
     "a" (mkRat 2000 2000) (by decide) (by decide) (by decide)⟩

/-! ## A concrete extraction input large enough to clear the 2000 floor -/

lemma filterMap_replicate {α β : Type} {f : α → Option β} {a : α} {b : β}
    (h : f a = some b) (n : Nat) :
    (List.replicate n a).filterMap f = List.replicate n b := by
  induction n with
  | zero => rfl
  | succ m ih =>
    rw [List.replicate_succ, List.filterMap_cons, h, ih, List.replicate_succ]

lemma dedup_replicate {α : Type} [DecidableEq α] (a : α) {n : Nat} (h : 0 < n) :
    (List.replicate n a).dedup = [a] := by
  induction n with
  | zero => omega
  | succ m ih =>
    rcases Nat.eq_zero_or_pos m with h0 | hm
    · subst h0
      rw [List.replicate_succ, List.replicate_zero,
        List.dedup_cons_of_not_mem (by simp), List.dedup_nil]
    · rw [List.replicate_succ,
        List.dedup_cons_of_mem (List.mem_replicate.mpr ⟨by omega, rfl⟩), ih hm]

/-- A fully admissible addon record. -/
def goodAddon : ActiveAddon := ⟨some ("a"), false, "extension", 2, false, false, false⟩

/-- One release-channel client with 2000 instances of the same addon:
the smallest shape of extraction input whose locale clears the 2000
floor. -/
def bigRows : List ClientRow :=
  [⟨"c1", "release", "Firefox", some ("de"), List.replicate 2000 goodAddon⟩]

lemma sample_bigRows :
    sample bigRows = List.replicate 2000 ((some ("de") : Option String), goodAddon) := by
  unfold sample bigRows
  rw [List.filter_cons, List.filter_nil, if_pos (by rfl),
    List.flatMap_cons, List.flatMap_nil, List.append_nil]
  exact List.map_replicate

lemma filteredSample_bigRows :
    filteredSample bigRows = List.replicate 2000 ("de", "a") := by
  unfold filteredSample
  rw [sample_bigRows]
  refine filterMap_replicate ?_ 2000
  rfl

lemma get_addons_bigRows : get_addons bigRows = [⟨"de", "a", 2000⟩] := by
  unfold get_addons countryAddonPairs
  rw [filteredSample_bigRows, dedup_replicate _ (by norm_num)]
  rw [List.map_cons, List.map_nil, List.count_replicate_self]
  rfl

theorem C6_whitelist_closed_witness :
    (generate_dictionary bigRows ["a"] simpleQuantile 1 =
      Except.ok [("de", [("a", mkRat 2000 2000)])]) ∧
    ("a" : String) ∈ (["a"] : List String) := by
  have hok : generate_dictionary bigRows ["a"] simpleQuantile 1 =
      Except.ok [("de", [("a", mkRat 2000 2000)])] := by
    unfold generate_dictionary
    rw [get_addons_bigRows]
    decide
  exact ⟨hok, C6_whitelist_closed bigRows ["a"] simpleQuantile 1
    [("de", [("a", mkRat 2000 2000)])] "de" [("a", mkRat 2000 2000)]
    "a" (mkRat 2000 2000) hok (by decide) (by decide)⟩

/-! ## C9: per-group scores sum to at most one -/

lemma normalizedInstalls_cons (p : AddonRow) (df : List AddonRow)
    (counts : List (String × Nat)) :
    normalizedInstalls (p :: df) counts =
      ((counts.filter (fun c => c.1 == p.locality)).map
        (fun c => (⟨p.addonKey, p.locality, normalize_cnts p.pairCnts c.2⟩ : NormRow))) ++
      normalizedInstalls df counts := by
  unfold normalizedInstalls combined
  rw [List.flatMap_cons, List.map_append, List.map_map]
  rfl

lemma ni_filter_locality (df : List AddonRow) (counts : List (String × Nat))
    (g : String) :
    (normalizedInstalls df counts).filter (fun r => r.locality == g) =
      normalizedInstalls (df.filter (fun p => p.locality == g)) counts := by
  induction df with
  | nil => rfl
  | cons p df ih =>
    rw [normalizedInstalls_cons, List.filter_append, ih, List.filter_cons]
    by_cases hp : (p.locality == g) = true
    · rw [if_pos hp, normalizedInstalls_cons]
      congr 1
      apply List.filter_eq_self.mpr
      intro r hr
      rcases List.mem_map.mp hr with ⟨c, -, rfl⟩
      exact hp
    · rw [if_neg hp]
      have hnil : (((counts.filter (fun c => c.1 == p.locality)).map
          (fun c => (⟨p.addonKey, p.locality, normalize_cnts p.pairCnts c.2⟩ : NormRow))).filter
          (fun r => r.locality == g)) = [] := by
        rw [List.filter_eq_nil_iff]
        intro r hr
        rcases List.mem_map.mp hr with ⟨c, -, rfl⟩
        exact fun hcon => hp hcon
      rw [hnil, List.nil_append]

lemma key_filter_of_nodup {counts : List (String × Nat)}
    (h : (counts.map Prod.fst).Nodup) (g : String) :
    counts.filter (fun c => c.1 == g) = [] ∨
      ∃ t, counts.filter (fun c => c.1 == g) = [(g, t)] := by
  induction counts with
  | nil => exact Or.inl rfl
  | cons c cs ih =>
    rw [List.map_cons, List.nodup_cons] at h
    rw [List.filter_cons]
    by_cases hc : (c.1 == g) = true
    · have hceq : c.1 = g := by simpa using hc
      have hnil : cs.filter (fun x => x.1 == g) = [] := by
        rw [List.filter_eq_nil_iff]
        intro x hx hxg
        apply h.1
        have hxeq : x.1 = g := by simpa using hxg
        exact List.mem_map.mpr ⟨x, hx, by rw [hxeq, hceq]⟩
      rw [if_pos hc, hnil]
      exact Or.inr ⟨c.2, by rw [← hceq, Prod.mk.eta]⟩
    · rw [if_neg hc]
      exact ih h.2

lemma normalizedInstalls_eq_nil {df : List AddonRow} {counts : List (String × Nat)}
    {g : String} (hall : ∀ p ∈ df, p.locality = g)
    (hnil : counts.filter (fun c => c.1 == g) = []) :
    normalizedInstalls df counts = [] := by
  induction df with
  | nil => rfl
  | cons p dfp ih =>
    rw [normalizedInstalls_cons, hall p (List.mem_cons_self _ _), hnil,
      List.map_nil, List.nil_append]
    exact ih (fun q hq => hall q (List.mem_cons_of_mem _ hq))

lemma sum_normalizedInstalls {counts : List (String × Nat)} {g : String} {t : Nat}
    (ht : counts.filter (fun c => c.1 == g) = [(g, t)]) :
    ∀ {df : List AddonRow}, (∀ p ∈ df, p.locality = g) →
      ((normalizedInstalls df counts).map (fun r => r.locNorm)).sum =
        ((df.map (fun p => (p.pairCnts : ℚ))).sum) / (t : ℚ) := by
  intro df
  induction df with
  | nil =>
    intro _
    simp [show normalizedInstalls [] counts = [] from rfl]
  | cons p dfp ih =>
    intro hall
    rw [normalizedInstalls_cons, hall p (List.mem_cons_self _ _), ht,
      List.map_cons, List.map_nil, List.map_append, List.sum_append,
      List.map_cons, List.map_nil, List.sum_cons, List.sum_nil,
      ih (fun q hq => hall q (List.mem_cons_of_mem _ hq)),
      normalize_cnts_eq_div, List.map_cons, List.sum_cons]
    rw [add_zero, div_add_div_same]

/-- C9: for every group, the normalized scores entering the ranking step
(before truncation to the top K) sum to at most 1, as exact rationals. -/
theorem C9_scores_sum_le_one (df : List AddonRow) (quantile : List ℚ → Option ℚ)
    (counts : List (String × Nat)) (g : String)
    (hok : compute_threshold df quantile = Except.ok counts) :
    (((normalizedInstalls df counts).filter
      (fun r => r.locality == g)).map (fun r => r.locNorm)).sum ≤ 1 := by
  rw [ni_filter_locality]
  rcases key_filter_of_nodup (counts_keys_nodup hok) g with hnil | ⟨t, ht⟩
  · rw [normalizedInstalls_eq_nil
      (fun p hp => by simpa using (List.mem_filter.mp hp).2) hnil]
    norm_num
  · rw [sum_normalizedInstalls ht
      (fun p hp => by simpa using (List.mem_filter.mp hp).2)]
    have hmem : (g, t) ∈ counts :=
      List.mem_of_mem_filter (ht ▸ List.mem_cons_self _ _)
    have hinv := counts_entry_inv hok hmem
    have hsum : ((df.filter (fun p => p.locality == g)).map
        (fun p => (p.pairCnts : ℚ))).sum = ((groupTotal df g : ℕ) : ℚ) := by
      unfold groupTotal
      rw [Nat.cast_list_sum, List.map_map]
      rfl
    have htg : t = groupTotal df g := hinv.1
    have ht0 : (0 : ℚ) < (t : ℚ) := lt_of_lt_of_le (by norm_num) hinv.2
    rw [hsum, ← htg, div_self (ne_of_gt ht0)]

theorem C9_scores_sum_le_one_witness :
    (compute_threshold c1df simpleQuantile = Except.ok [("de", 3000)]) ∧
    (((normalizedInstalls c1df [("de", 3000)]).filter
      (fun r => r.locality == "de")).map (fun r => r.locNorm)).sum ≤ 1 :=
  ⟨by decide,
   C9_scores_sum_le_one c1df simpleQuantile [("de", 3000)] "de" (by decide)⟩

/-! ## C7: the extraction query -/

/-- The WHERE clause of `get_addons`, as a predicate on a source row and
one of its addon records: release channel, Firefox, a non-null locale
that is not the literal string `"null"`, and an addon that is
non-blocklisted, an extension, fully reviewed (signed_state = 2), not
user- or app-disabled, and not a system addon. -/
def qualifyingEvent (rows : List ClientRow) (l k : String) : Prop :=
  ∃ r ∈ rows, r.channel = "release" ∧ r.appName = "Firefox" ∧
    r.locale = some l ∧ l ≠ "null" ∧
    ∃ a ∈ r.activeAddons, a.addonId = some k ∧ a.blocklisted = false ∧
      a.addonType = "extension" ∧ a.signedState = 2 ∧ a.userDisabled = false ∧
      a.appDisabled = false ∧ a.isSystem = false

lemma mem_filteredSample_inv {rows : List ClientRow} {l k : String}
    (h : (l, k) ∈ filteredSample rows) : qualifyingEvent rows l k := by
  unfold filteredSample at h
  rcases List.mem_filterMap.mp h with ⟨la, hla, hsome⟩
  rcases List.mem_flatMap.mp (by unfold sample at hla; exact hla) with ⟨r, hr, hmem⟩
  rcases List.mem_map.mp hmem with ⟨a, ha, hpa⟩
  have hrf := List.mem_filter.mp hr
  have hchan : r.channel = "release" ∧ r.appName = "Firefox" := by
    have h2 := hrf.2
    simp only [Bool.and_eq_true, beq_iff_eq] at h2
    exact h2
  subst hpa
  rcases hloc : r.locale with _ | lo
  · rw [hloc] at hsome
    simp at hsome
  rcases haid : a.addonId with _ | ko
  · rw [hloc, haid] at hsome
    simp at hsome
  rw [hloc, haid] at hsome
  dsimp only at hsome
  by_cases hcond : ((!a.blocklisted) && (a.addonType == "extension") &&
      (a.signedState == 2) && (!a.userDisabled) &&
      (!a.appDisabled) && (!a.isSystem) && (lo != "null")) = true
  · rw [if_pos hcond] at hsome
    injection hsome with hse
    have hl : lo = l := congrArg Prod.fst hse
    have hk : ko = k := congrArg Prod.snd hse
    subst hl
    subst hk
    simp only [Bool.and_eq_true, Bool.not_eq_true', beq_iff_eq,
      bne_iff_ne, ne_eq] at hcond
    exact ⟨r, hrf.1, hchan.1, hchan.2, hloc, hcond.2, a, ha, haid,
      hcond.1.1.1.1.1.1, hcond.1.1.1.1.1.2, hcond.1.1.1.1.2,
      hcond.1.1.1.2, hcond.1.1.2, hcond.1.2⟩
  · rw [if_neg hcond] at hsome
    cases hsome

/-- C7: the extraction query produces one pair count per
`(locality, addon_key)`, the count is the number of occurrences of that
pair among the exploded qualifying instances, every counted pair comes
from an event satisfying the full WHERE clause, and the output rows are
sorted by locality ascending and pair count descending. -/
theorem C7_extractor (rows : List ClientRow) :
    (get_addons rows).Sorted addonOrd ∧
    (get_addons rows).Pairwise
      (fun p q => (p.locality, p.addonKey) ≠ (q.locality, q.addonKey)) ∧
    (∀ l k, (l, k) ∈ filteredSample rows → qualifyingEvent rows l k) ∧
    (∀ p ∈ get_addons rows,
      p.pairCnts = (filteredSample rows).count (p.locality, p.addonKey) ∧
      (p.locality, p.addonKey) ∈ filteredSample rows) := by
  have hperm := List.perm_insertionSort addonOrd (countryAddonPairs rows)
  refine ⟨List.sorted_insertionSort _ _, ?_, ?_, ?_⟩
  · have hnd : ((filteredSample rows).dedup).Pairwise (fun a b => a ≠ b) :=
      List.nodup_dedup _
    have hcp : (countryAddonPairs rows).Pairwise
        (fun p q => (p.locality, p.addonKey) ≠ (q.locality, q.addonKey)) := by
      unfold countryAddonPairs
      rw [List.pairwise_map]
      refine hnd.imp_of_mem ?_
      intro a b _ _ hab
      simpa [Prod.mk.eta] using hab
    exact (List.Perm.pairwise_iff (fun hxy => Ne.symm hxy) hperm).mpr hcp
  · intro l k hmem
    exact mem_filteredSample_inv hmem
  · intro p hp
    have hp2 : p ∈ countryAddonPairs rows := hperm.mem_iff.mp hp
    unfold countryAddonPairs at hp2
    rcases List.mem_map.mp hp2 with ⟨k0, hk0, rfl⟩
    have hk0m : k0 ∈ filteredSample rows := List.mem_dedup.mp hk0
    constructor
    · show (filteredSample rows).count k0 = (filteredSample rows).count (k0.1, k0.2)
      rw [Prod.mk.eta]
    · show (k0.1, k0.2) ∈ filteredSample rows
      rw [Prod.mk.eta]
      exact hk0m

/-- Extraction input for the C7 witness: two release clients in two
locales and one beta-channel client that must be ignored. -/
def c7rows : List ClientRow :=
  [⟨"c1", "release", "Firefox", some ("de"),
     [goodAddon, ⟨some ("b"), false, "extension", 2, false, false, false⟩]⟩,
   ⟨"c2", "release", "Firefox", some ("fr"), [goodAddon]⟩,
   ⟨"c3", "beta", "Firefox", some ("de"), [goodAddon]⟩]

theorem C7_extractor_witness :
    (get_addons c7rows = [⟨"de", "a", 1⟩, ⟨"de", "b", 1⟩, ⟨"fr", "a", 1⟩]) ∧
    qualifyingEvent c7rows ("de") ("a") ∧
    ((⟨"de", "a", 1⟩ : AddonRow).pairCnts =
      (filteredSample c7rows).count (("de" : String), ("a" : String)) ∧
     (("de" : String), ("a" : String)) ∈ filteredSample c7rows) :=
  ⟨by decide,
   (C7_extractor c7rows).2.2.1 ("de") ("a") (by decide),
   (C7_extractor c7rows).2.2.2 ⟨"de", "a", 1⟩ (by decide)⟩

end TaarLocale
